import Mathlib

/-!
Verification of the Document Q&A Bot RAG-pipeline core
(`backend/rag_pipeline.py`, `backend/config.py`) against its specification.

Python strings are modelled as `List Char`; the persistent ChromaDB
collection as a list of records in insertion order; the external
collaborators (the per-format file readers, the sentence-transformers
embedding model, and the Gemini generation call) as function-valued
oracles supplied to each operation.
-/

set_option maxRecDepth 100000

/-! ## Definitions -/

/-- The whitespace characters Python's `str.strip()` removes, restricted to
ASCII: space, tab, newline, carriage return, vertical tab, form feed. -/
def isPySpace (c : Char) : Bool :=
  c = ' ' || c = '\t' || c = '\n' || c = '\r' || c = '\x0b' || c = '\x0c'

/-- Python `s.strip()`: drop leading and trailing whitespace. -/
def pyStrip (l : List Char) : List Char :=
  ((l.dropWhile isPySpace).reverse.dropWhile isPySpace).reverse

/-- Python slice `text[start:stop]` for `start ≤ stop`: out-of-range indices
clamp to the end of the string. -/
def pySlice (text : List Char) (start stop : Nat) : List Char :=
  (text.drop start).take (stop - start)

/-- `config.CHUNK_SIZE` -/
def CHUNK_SIZE : Nat := 500

/-- `config.CHUNK_OVERLAP` -/
def CHUNK_OVERLAP : Nat := 50

/-- The `while start < len(text)` loop of `rag_pipeline.chunk_text`, with the
chunk size and overlap as parameters (the source reads them from `config`) and
explicit iteration fuel.  Each iteration slices `text[start:start+size]`,
appends the stripped slice when it is non-empty, and advances `start` by
`size - overlap`.  `chunk_text` runs the loop with fuel `text.length`;
the fuel-stability lemma `chunkLoop_fuel_ext` shows that any fuel of at least
`text.length` yields the same value, i.e. the fuel is not observable and the
loop terminates. -/
def chunkLoop (size overlap : Nat) : Nat → List Char → Nat → List (List Char)
  | 0, _, _ => []
  | fuel + 1, text, start =>
    if start < text.length then
      if pyStrip (pySlice text start (start + size)) ≠ [] then
        pyStrip (pySlice text start (start + size)) ::
          chunkLoop size overlap fuel text (start + (size - overlap))
      else
        chunkLoop size overlap fuel text (start + (size - overlap))
    else []

/-- `rag_pipeline.chunk_text`: early return `[]` for empty or whitespace-only
text, otherwise the slicing loop starting at offset 0. -/
def chunk_text (text : List Char) : List (List Char) :=
  if pyStrip text = [] then []
  else chunkLoop CHUNK_SIZE CHUNK_OVERLAP text.length text 0

/-- Number of iterations the `chunk_text` loop makes on a text of length `L`:
one slice is taken at each start offset `0, S-O, 2(S-O), …` below `L`,
i.e. `⌈L / (S-O)⌉` slices. -/
def numSlices (L : Nat) : Nat :=
  (L + (CHUNK_SIZE - CHUNK_OVERLAP) - 1) / (CHUNK_SIZE - CHUNK_OVERLAP)

/-- The stripped slices the `chunk_text` loop inspects, in loop order: the
`k`-th has start offset `(S-O)·k` and raw length at most `CHUNK_SIZE`. -/
def loopSlices (text : List Char) : List (List Char) :=
  (List.range (numSlices text.length)).map fun k =>
    pyStrip (pySlice text ((CHUNK_SIZE - CHUNK_OVERLAP) * k)
      ((CHUNK_SIZE - CHUNK_OVERLAP) * k + CHUNK_SIZE))

/-- How many slices the loop drops because they are whitespace-only. -/
def droppedSlices (text : List Char) : Nat :=
  (loopSlices text).countP fun c => c = []

/-- The chunk count formula claimed by the spec (§8 “Testable properties”):
`ceil(max(L - O, 0) / (S - O))`. -/
def specChunkCount (L : Nat) : Nat :=
  (max (L - CHUNK_OVERLAP) 0 + (CHUNK_SIZE - CHUNK_OVERLAP) - 1) /
    (CHUNK_SIZE - CHUNK_OVERLAP)

/-- The chunking algorithm exactly as the spec words it (§4.2): starting at
offset 0, repeatedly slice `[start, start+chunk_size)`, trim, append the
trimmed result iff non-empty, advance `start` by `chunk_size - chunk_overlap`,
stop when `start ≥ len(text)`; no early return for whitespace-only input. -/
def specChunkLoop : Nat → List Char → Nat → List (List Char)
  | 0, _, _ => []
  | fuel + 1, text, start =>
    if start < text.length then
      if pyStrip (pySlice text start (start + CHUNK_SIZE)) ≠ [] then
        pyStrip (pySlice text start (start + CHUNK_SIZE)) ::
          specChunkLoop fuel text (start + (CHUNK_SIZE - CHUNK_OVERLAP))
      else
        specChunkLoop fuel text (start + (CHUNK_SIZE - CHUNK_OVERLAP))
    else []

/-- The spec's reference chunker, run to completion (loop budget
`text.length`, which by the fuel-stability lemma `chunkLoop_fuel_ext` is
exhaustive). -/
def chunkTextSpec (text : List Char) : List (List Char) :=
  specChunkLoop text.length text 0

/-- The decimal digit characters. -/
def digitChar (n : Nat) : Char :=
  if n = 0 then '0' else if n = 1 then '1' else if n = 2 then '2'
  else if n = 3 then '3' else if n = 4 then '4' else if n = 5 then '5'
  else if n = 6 then '6' else if n = 7 then '7' else if n = 8 then '8'
  else '9'

/-- Decimal rendering, big-endian, with explicit recursion fuel (the number
of digits of `n` is at most `n + 1`, so `natRepr` runs it with fuel `n + 1`;
`natReprCore_ext` shows any sufficient fuel gives the same digits). -/
def natReprCore : Nat → Nat → List Char
  | 0, _ => []
  | fuel + 1, n =>
    if n < 10 then [digitChar n]
    else natReprCore fuel (n / 10) ++ [digitChar (n % 10)]

/-- Python `str(n)` for a natural number `n`. -/
def natRepr (n : Nat) : List Char := natReprCore (n + 1) n

/-!
The ChromaDB collection is modelled as a list of records in insertion order:
`collection.add` appends, `collection.get(where=...)` filters, and
`collection.delete(ids=...)` removes the records with the given ids.  The
embedding vector attached to each record is opaque to every claim and is
produced by an oracle `embed` standing for `embedding_model.encode`.
-/

/-- One stored record: id, embedding, document text and the metadata dict
`{doc_id, filename, chunk_index}` that `process_document` attaches. -/
structure ChromaRecord where
  id : List Char
  embedding : List Int
  text : List Char
  doc_id : List Char
  filename : List Char
  chunk_index : Nat
deriving DecidableEq, Repr

/-- The collection's contents, in insertion order. -/
abbrev Store := List ChromaRecord

/-- The errors `rag_pipeline` raises as `ValueError`s, per the spec's
taxonomy: `UnsupportedFormat` (with the offending extension),
`EmptyDocument`, `NoChunksProduced`. -/
inductive PipelineError where
  | unsupportedFormat : List Char → PipelineError
  | emptyDocument : PipelineError
  | noChunksProduced : PipelineError
deriving DecidableEq, Repr

/-- The dict `process_document` returns. -/
structure IngestResult where
  doc_id : List Char
  filename : List Char
  total_chunks : Nat
  text_length : Nat
deriving DecidableEq, Repr

/-- The four per-format text readers (`extract_text_from_pdf` / `_docx` /
`_txt` / `_pptx`), as oracles mapping a file path to the text they extract;
`ppt` and `pptx` share the `pptx` strategy. -/
structure Extractors where
  pdf : List Char → List Char
  docx : List Char → List Char
  txt : List Char → List Char
  pptx : List Char → List Char

/-- Python `s.lower()`. -/
def pyLower (l : List Char) : List Char := l.map Char.toLower

/-- `file_path.rsplit(".", 1)[-1]`: the suffix after the last dot, or the
whole string when it has no dot. -/
def extOf (l : List Char) : List Char :=
  (l.reverse.takeWhile (fun c => c ≠ '.')).reverse

/-- The keys of the `extractors` dict in `rag_pipeline.extract_text`. -/
def SUPPORTED_EXTS : List (List Char) :=
  ["pdf".data, "docx".data, "txt".data, "pptx".data, "ppt".data]

/-- `rag_pipeline.extract_text`: dispatch on `file_path.lower().rsplit(".", 1)[-1]`
through the `extractors` dict; unknown extensions raise
`ValueError` (the spec's `UnsupportedFormat`). -/
def extract_text (fs : Extractors) (path : List Char) : Except PipelineError (List Char) :=
  if extOf (pyLower path) = "pdf".data then Except.ok (fs.pdf path)
  else if extOf (pyLower path) = "docx".data then Except.ok (fs.docx path)
  else if extOf (pyLower path) = "txt".data then Except.ok (fs.txt path)
  else if extOf (pyLower path) = "pptx".data then Except.ok (fs.pptx path)
  else if extOf (pyLower path) = "ppt".data then Except.ok (fs.pptx path)
  else Except.error (PipelineError.unsupportedFormat (extOf (pyLower path)))

/-- The record id `f"{doc_id}_chunk_{i}"`. -/
def mkChunkId (d : List Char) (i : Nat) : List Char :=
  d ++ "_chunk_".data ++ natRepr i

/-- `rag_pipeline.process_document`: extract, check emptiness, chunk, check
chunking, embed every chunk, build one record per chunk and `collection.add`
them; returns the new store contents together with the result dict or the
raised error. -/
def processDocument (fs : Extractors) (embed : List Char → List Int)
    (path d f : List Char) (s : Store) :
    Store × Except PipelineError IngestResult :=
  match extract_text fs path with
  | Except.error e => (s, Except.error e)
  | Except.ok text =>
    if pyStrip text = [] then (s, Except.error PipelineError.emptyDocument)
    else
      let chunks := chunk_text text
      if chunks = [] then (s, Except.error PipelineError.noChunksProduced)
      else
        let records := List.zipWith
          (fun i c => ChromaRecord.mk (mkChunkId d i) (embed c) c d f i)
          (List.range chunks.length) chunks
        (s ++ records,
          Except.ok (IngestResult.mk d f chunks.length text.length))

/-- `rag_pipeline.delete_document`: `collection.get(where={"doc_id": doc_id})`,
then `collection.delete(ids=...)` when any ids matched; returns `True` on both
paths (`False` is returned only when the store itself raises, which the pure
store model cannot). -/
def delete_document (d : List Char) (s : Store) : Store × Bool :=
  let ids := (s.filter fun r => r.doc_id = d).map fun r => r.id
  if ids ≠ [] then (s.filter fun r => r.id ∉ ids, true)
  else (s, true)

/-- One entry of the list `get_all_documents` returns. -/
structure DocSummary where
  doc_id : List Char
  filename : List Char
  chunk_count : Nat
deriving DecidableEq, Repr

/-- The body of `get_all_documents`'s for-loop: `if did not in docs:` create
the entry with `chunk_count` 0 (keeping dict insertion order), then
`docs[did]["chunk_count"] += 1`. -/
def addMetaStep (docs : List DocSummary) (r : ChromaRecord) : List DocSummary :=
  (if docs.any (fun e => e.doc_id = r.doc_id) then docs
   else docs ++ [DocSummary.mk r.doc_id r.filename 0]).map fun e =>
    if e.doc_id = r.doc_id then DocSummary.mk e.doc_id e.filename (e.chunk_count + 1)
    else e

/-- `rag_pipeline.get_all_documents`: group all stored metadata by `doc_id`,
counting chunks, keeping the first-seen filename. -/
def get_all_documents (s : Store) : List DocSummary :=
  if s = [] then [] else s.foldl addMetaStep []

/-- The fixed fallback answer of `ask_question` (two adjacent Python string
literals, concatenated). -/
def NO_INFO_ANSWER : List Char :=
  ("Bu soru için dokümanlarınızda ilgili bir bilgi bulamadım. " ++
    "Lütfen farklı bir soru deneyin veya yeni bir doküman yükleyin.").data

/-- The separator joining retrieved chunks into the context block. -/
def CONTEXT_SEP : List Char := "\n\n---\n\n".data

/-- The grounding prompt `ask_question` builds around the joined context and
the query (the Turkish instruction template of `rag_pipeline.py`). -/
def buildPrompt (context query : List Char) : List Char :=
  ("Sen bir doküman asistanısın. Aşağıdaki doküman parçalarına dayanarak kullanıcının sorusunu cevapla.\n\n" ++
    "ÖNEMLİ KURALLAR:\n" ++
    "- SADECE verilen doküman parçalarındaki bilgilere dayanarak cevap ver.\n" ++
    "- Bilgi dokümanlardan gelmiyorsa, \"Bu bilgi dokümanlarınızda bulunamadı\" de.\n" ++
    "- Cevabın açık, net ve anlaşılır olsun.\n" ++
    "- Gerekirse maddeler halinde listele.\n\n" ++
    "--- DOKÜMAN PARÇALARI ---\n").data ++ context ++
    ("\n--- DOKÜMAN PARÇALARI SONU ---\n\nKULLANICININ SORUSU: ").data ++ query ++
    ("\n\nCEVAP:").data

/-- The dict `ask_question` returns. -/
structure AskResult where
  answer : List Char
  context_used : List (List Char)
deriving DecidableEq, Repr

/-- `rag_pipeline.ask_question`, given the chunk texts `retrieve_context`
returned for the query and an oracle `gen` standing for the Gemini
`generate_content` call: on an empty retrieval return the fixed fallback with
an empty context list; otherwise join the chunks, build the prompt and return
the generated text together with the chunks used. -/
def ask_question (retrieved : List (List Char)) (gen : List Char → List Char)
    (query : List Char) : AskResult :=
  if retrieved = [] then AskResult.mk NO_INFO_ANSWER []
  else AskResult.mk (gen (buildPrompt (CONTEXT_SEP.intercalate retrieved) query)) retrieved

/-- Invariant: every stored record's id follows the
`f"{doc_id}_chunk_{index}"` scheme of `process_document`. -/
def StoreWellFormed (s : Store) : Prop :=
  ∀ r ∈ s, r.id = mkChunkId r.doc_id r.chunk_index

/-- Invariant: no two stored records share an identifier. -/
def UniqueIds (s : Store) : Prop := (s.map fun r => r.id).Nodup

/-- A concrete extractor oracle used by witnesses: every reader yields the
eleven-character text "hello world". -/
def exExtractors : Extractors :=
  Extractors.mk (fun _ => "hello world".data) (fun _ => "hello world".data)
    (fun _ => "hello world".data) (fun _ => "hello world".data)

/-- A concrete embedding oracle used by witnesses. -/
def exEmbed : List Char → List Int := fun _ => [0]

/-! ## Scratch sanity checks (concrete evaluation of the embedding) -/

example : chunk_text "".data = [] := by decide
example : chunk_text "   ".data = [] := by decide
example : chunk_text "hello world".data = ["hello world".data] := by decide
example : (chunk_text (List.replicate 500 'a')).length = 2 := by decide
example : (chunk_text (List.replicate 450 'a')).length = 1 := by decide
example : natRepr 0 = ['0'] := by decide
example : natRepr 137 = ['1', '3', '7'] := by decide
example : extOf (pyLower "Report.PDF".data) = "pdf".data := by decide
example : extOf (pyLower "noext".data) = "noext".data := by decide

/-! ## Theorems: `pyStrip`, `pySlice` and the chunking loop -/

theorem pyStrip_eq_nil_iff (l : List Char) :
    pyStrip l = [] ↔ ∀ c ∈ l, isPySpace c = true := by
  unfold pyStrip
  rw [List.reverse_eq_nil_iff, List.dropWhile_eq_nil_iff]
  constructor
  · intro h c hc
    by_cases hm : c ∈ l.takeWhile isPySpace
    · exact List.mem_takeWhile_imp hm
    · have hc' : c ∈ l.dropWhile isPySpace := by
        rcases List.mem_append.mp
          (by rw [List.takeWhile_append_dropWhile isPySpace l]; exact hc) with h' | h'
        · exact absurd h' hm
        · exact h'
      exact h c (List.mem_reverse.mpr hc')
  · intro h c hc
    exact h c ((List.dropWhile_sublist isPySpace).subset (List.mem_reverse.mp hc))

theorem pyStrip_ne_nil_of_mem {l : List Char} {c : Char}
    (hc : c ∈ l) (hs : isPySpace c = false) : pyStrip l ≠ [] := by
  intro h
  have := (pyStrip_eq_nil_iff l).mp h c hc
  simp [hs] at this

theorem mem_of_mem_pySlice {text : List Char} {start stop : Nat} {c : Char}
    (h : c ∈ pySlice text start stop) : c ∈ text :=
  List.mem_of_mem_drop (List.mem_of_mem_take h)

theorem chunkLoop_of_le (size overlap fuel : Nat) (text : List Char) (start : Nat)
    (h : text.length ≤ start) : chunkLoop size overlap fuel text start = [] := by
  cases fuel with
  | zero => rfl
  | succ fuel => simp [chunkLoop, Nat.not_lt.mpr h]

theorem chunkLoop_fuel_ext (size overlap : Nat)
    (fuel : Nat) : ∀ (extra : Nat) (text : List Char) (start : Nat),
    text.length ≤ start + fuel * (size - overlap) →
    chunkLoop size overlap (fuel + extra) text start =
      chunkLoop size overlap fuel text start := by
  induction fuel with
  | zero =>
    intro extra text start h
    rw [chunkLoop_of_le size overlap _ text start (by simpa using h),
      chunkLoop_of_le size overlap _ text start (by simpa using h)]
  | succ fuel ih =>
    intro extra text start h
    have hrw : fuel + 1 + extra = (fuel + extra) + 1 := by omega
    rw [hrw]
    by_cases hs : start < text.length
    · have hb : text.length ≤ (start + (size - overlap)) + fuel * (size - overlap) := by
        rw [Nat.succ_mul] at h
        generalize fuel * (size - overlap) = m at *
        omega
      simp only [chunkLoop, hs, if_true]
      rw [ih extra text (start + (size - overlap)) hb]
    · simp only [chunkLoop, hs, if_false]

/-- C7: under the configuration precondition `chunk_overlap < chunk_size` the
chunking loop of `chunk_text` terminates: `start` strictly increases by the
positive step `size - overlap` each iteration and the loop exits once
`start ≥ len(text)`, so running it with any iteration budget of at least
`text.length` yields one and the same value — in particular the value
`chunk_text` computes with its budget of `text.length`. -/
theorem chunk_text_terminates (size overlap : Nat) (h : overlap < size)
    (text : List Char) (fuel : Nat) (hfuel : text.length ≤ fuel) :
    chunkLoop size overlap fuel text 0 = chunkLoop size overlap text.length text 0
    ∧ 0 < size - overlap
    ∧ (pyStrip text ≠ [] →
        chunk_text text = chunkLoop CHUNK_SIZE CHUNK_OVERLAP fuel text 0) := by
  have hsplit : fuel = text.length + (fuel - text.length) := by omega
  refine ⟨?_, by omega, ?_⟩
  · have hb : text.length ≤ 0 + text.length * (size - overlap) := by
      have := Nat.le_mul_of_pos_right text.length (by omega : 0 < size - overlap)
      simpa using this
    rw [hsplit]
    exact chunkLoop_fuel_ext size overlap text.length (fuel - text.length) text 0 hb
  · intro hne
    unfold chunk_text
    rw [if_neg hne]
    have hb : text.length ≤ 0 + text.length * (CHUNK_SIZE - CHUNK_OVERLAP) := by
      simp only [CHUNK_SIZE, CHUNK_OVERLAP]
      omega
    rw [hsplit]
    exact (chunkLoop_fuel_ext CHUNK_SIZE CHUNK_OVERLAP text.length
      (fuel - text.length) text 0 hb).symm

/-- Witness for `chunk_text_terminates`: size 500, overlap 50, the two-character
text "ab", fuel 7. -/
theorem chunk_text_terminates_witness :
    chunkLoop 500 50 7 "ab".data 0 = chunkLoop 500 50 ("ab".data).length "ab".data 0
    ∧ 0 < 500 - 50
    ∧ (pyStrip "ab".data ≠ [] →
        chunk_text "ab".data = chunkLoop CHUNK_SIZE CHUNK_OVERLAP 7 "ab".data 0) :=
  chunk_text_terminates 500 50 (by decide) "ab".data 7 (by decide)

theorem chunkLoop_eq_filter (text : List Char) (fuel : Nat) :
    ∀ start : Nat, text.length ≤ start + fuel * 450 →
    chunkLoop 500 50 fuel text start =
      ((List.range ((text.length - start + 449) / 450)).map fun k =>
        pyStrip (pySlice text (start + 450 * k) (start + 450 * k + 500))).filter
        (fun c => c ≠ []) := by
  induction fuel with
  | zero =>
    intro start h
    have h0 : (text.length - start + 449) / 450 = 0 := by omega
    simp [chunkLoop, h0]
  | succ fuel ih =>
    intro start h
    by_cases hs : start < text.length
    · have hn : (text.length - start + 449) / 450 =
          (text.length - (start + 450) + 449) / 450 + 1 := by omega
      have hb : text.length ≤ (start + 450) + fuel * 450 := by omega
      have hstep : (500 : Nat) - 50 = 450 := by omega
      have hrec := ih (start + 450) hb
      rw [hn, List.range_succ_eq_map]
      simp only [List.map_cons, List.map_map, Nat.mul_zero, Nat.add_zero]
      have hfn : ((fun k => pyStrip (pySlice text (start + 450 * k)
            (start + 450 * k + 500))) ∘ Nat.succ) =
          fun k => pyStrip (pySlice text ((start + 450) + 450 * k)
            ((start + 450) + 450 * k + 500)) := by
        funext k
        have : start + 450 * (k + 1) = (start + 450) + 450 * k := by ring
        simp [Function.comp, Nat.succ_eq_add_one, this]
      rw [List.filter_cons, hfn, ← hrec]
      by_cases hc : pyStrip (pySlice text start (start + 500)) = []
      · simp only [chunkLoop, hs, if_true, hstep, hc]
        simp
      · simp only [chunkLoop, hs, if_true, hstep, hc]
        simp [hc]
    · have h0 : (text.length - start + 449) / 450 = 0 := by omega
      simp [chunkLoop, hs, h0]

theorem length_filter_ne_nil (l : List (List Char)) :
    (l.filter fun c => c ≠ []).length = l.length - l.countP (fun c => c = []) := by
  induction l with
  | nil => rfl
  | cons a l ih =>
    have hle : List.countP (fun c => decide (c = [])) l ≤ l.length :=
      List.countP_le_length _
    simp only [ne_eq, decide_not] at ih ⊢
    rw [List.filter_cons, List.countP_cons]
    by_cases ha : a = []
    all_goals simp [ha, ih]
    all_goals omega

theorem loopSlices_of_ws {text : List Char} (hw : pyStrip text = []) :
    ∀ c ∈ loopSlices text, c = [] := by
  intro x hx
  simp only [loopSlices, List.mem_map] at hx
  obtain ⟨k, -, rfl⟩ := hx
  rw [pyStrip_eq_nil_iff]
  intro c hc
  exact (pyStrip_eq_nil_iff text).mp hw c (mem_of_mem_pySlice hc)

/-- The central characterisation of `chunk_text`: its output is the list of
stripped slices at start offsets `0, 450, 900, …`, keeping exactly the ones
that are non-empty after stripping. -/
theorem chunk_text_eq_filter (text : List Char) :
    chunk_text text = (loopSlices text).filter (fun c => c ≠ []) := by
  by_cases hw : pyStrip text = []
  · unfold chunk_text
    rw [if_pos hw]
    symm
    rw [List.filter_eq_nil_iff]
    intro x hx
    simp [loopSlices_of_ws hw x hx]
  · unfold chunk_text
    rw [if_neg hw]
    have hb : text.length ≤ 0 + text.length * 450 := by omega
    have hrw := chunkLoop_eq_filter text text.length 0 hb
    have hnum : (text.length - 0 + 449) / 450 = numSlices text.length := by
      simp only [numSlices, CHUNK_SIZE, CHUNK_OVERLAP]
      omega
    rw [hnum] at hrw
    simp only [CHUNK_SIZE, CHUNK_OVERLAP]
    rw [hrw]
    simp [loopSlices, numSlices, CHUNK_SIZE, CHUNK_OVERLAP]

/-- C1 (amended): with the fixed configuration `S = 500`, `O = 50`, the chunks
`chunk_text` returns are exactly the non-whitespace-only stripped slices taken
at start offsets `0, S-O, 2(S-O), …` (consecutive slice starts always differ by
exactly `S - O`); consequently the number of chunks is `⌈L / (S-O)⌉` minus the
number of slices that are whitespace-only after trimming — not
`⌈max(L-O,0) / (S-O)⌉` as the spec claims. -/
theorem chunk_text_slice_characterization (text : List Char) :
    chunk_text text = (loopSlices text).filter (fun c => c ≠ []) ∧
    (chunk_text text).length = numSlices text.length - droppedSlices text := by
  have hmain := chunk_text_eq_filter text
  refine ⟨hmain, ?_⟩
  rw [hmain, length_filter_ne_nil]
  have hlen : (loopSlices text).length = numSlices text.length := by
    simp [loopSlices]
  rw [hlen]
  rfl

/-- Counterexample to C1 as stated: for the 500-character all-`'a'` text no
slice is whitespace-only, `chunk_text` returns 2 chunks, yet the spec's formula
`ceil(max(L - O, 0) / (S - O))` gives 1. -/
theorem chunk_count_formula_cex :
    droppedSlices (List.replicate 500 'a') = 0 ∧
    (chunk_text (List.replicate 500 'a')).length = 2 ∧
    specChunkCount (List.replicate 500 'a').length = 1 :=
  ⟨by decide, by decide, by decide⟩

theorem specChunkLoop_eq_chunkLoop (fuel : Nat) :
    ∀ (text : List Char) (start : Nat),
    specChunkLoop fuel text start = chunkLoop CHUNK_SIZE CHUNK_OVERLAP fuel text start := by
  induction fuel with
  | zero => intro text start; rfl
  | succ fuel ih =>
    intro text start
    simp only [specChunkLoop, chunkLoop, ih]

/-- C4: `chunk_text` computes exactly the sequence the spec's reference
algorithm describes; in particular empty or all-whitespace input yields `[]`
and a shorter final slice is still emitted when non-empty after trimming. -/
theorem chunk_text_eq_spec (text : List Char) :
    chunk_text text = chunkTextSpec text := by
  unfold chunk_text chunkTextSpec
  rw [specChunkLoop_eq_chunkLoop]
  by_cases hw : pyStrip text = []
  · rw [if_pos hw]
    have hb : text.length ≤ 0 + text.length * 450 := by omega
    have hrw := chunkLoop_eq_filter text text.length 0 hb
    simp only [CHUNK_SIZE, CHUNK_OVERLAP]
    rw [hrw]
    symm
    rw [List.filter_eq_nil_iff]
    intro x hx
    simp only [List.mem_map] at hx
    obtain ⟨k, -, rfl⟩ := hx
    have h0 : pyStrip (pySlice text (0 + 450 * k) (0 + 450 * k + 500)) = [] := by
      rw [pyStrip_eq_nil_iff]
      intro c hc
      exact (pyStrip_eq_nil_iff text).mp hw c (mem_of_mem_pySlice hc)
    simp only [Nat.zero_add] at h0 ⊢
    simp [h0]
  · rw [if_neg hw]

/-! ## Theorems: every non-whitespace text yields a chunk (C8) -/

theorem getElem_pySlice_mem {text : List Char} {p a n : Nat} (hp : p < text.length)
    (ha : a ≤ p) (hb : p < a + n) : text[p] ∈ pySlice text a (a + n) := by
  unfold pySlice
  have hn : a + n - a = n := by omega
  rw [hn]
  have hlt : p - a < ((text.drop a).take n).length := by
    simp only [List.length_take, List.length_drop]
    omega
  have heq : ((text.drop a).take n)[p - a] = text[p] := by
    rw [List.getElem_take, List.getElem_drop]
    have hidx : a + (p - a) = p := by omega
    simp [hidx]
  rw [← heq]
  exact List.getElem_mem hlt

theorem chunk_text_ne_nil {text : List Char} (hne : pyStrip text ≠ []) :
    chunk_text text ≠ [] := by
  rw [chunk_text_eq_filter]
  have hex : ∃ c ∈ text, isPySpace c = false := by
    by_contra hno
    push_neg at hno
    apply hne
    rw [pyStrip_eq_nil_iff]
    intro c hc
    have h2 := hno c hc
    cases h : isPySpace c
    · exact absurd h h2
    · rfl
  obtain ⟨c, hc, hcf⟩ := hex
  obtain ⟨p, hp, hpc⟩ := List.mem_iff_getElem.mp hc
  intro hnil
  rw [List.filter_eq_nil_iff] at hnil
  have hkn : p / 450 < numSlices text.length := by
    simp only [numSlices, CHUNK_SIZE, CHUNK_OVERLAP]
    omega
  have hsl : c ∈ pySlice text ((CHUNK_SIZE - CHUNK_OVERLAP) * (p / 450))
      ((CHUNK_SIZE - CHUNK_OVERLAP) * (p / 450) + CHUNK_SIZE) := by
    rw [← hpc]
    apply getElem_pySlice_mem hp
    · simp only [CHUNK_SIZE, CHUNK_OVERLAP]
      omega
    · simp only [CHUNK_SIZE, CHUNK_OVERLAP]
      omega
  have hmemLS : pyStrip (pySlice text ((CHUNK_SIZE - CHUNK_OVERLAP) * (p / 450))
      ((CHUNK_SIZE - CHUNK_OVERLAP) * (p / 450) + CHUNK_SIZE)) ∈ loopSlices text :=
    List.mem_map_of_mem _ (List.mem_range.mpr hkn)
  have hx := hnil _ hmemLS
  simp at hx
  exact pyStrip_ne_nil_of_mem hsl hcf hx

theorem extract_text_error_of_unsupported {fs : Extractors} {path : List Char}
    (h : extOf (pyLower path) ∉ SUPPORTED_EXTS) :
    extract_text fs path =
      Except.error (PipelineError.unsupportedFormat (extOf (pyLower path))) := by
  simp only [SUPPORTED_EXTS, List.mem_cons, List.not_mem_nil, or_false, not_or] at h
  obtain ⟨h1, h2, h3, h4, h5⟩ := h
  unfold extract_text
  rw [if_neg h1, if_neg h2, if_neg h3, if_neg h4, if_neg h5]

theorem extract_text_ok_of_supported {fs : Extractors} {path : List Char}
    (h : extOf (pyLower path) ∈ SUPPORTED_EXTS) :
    ∃ t, extract_text fs path = Except.ok t := by
  simp only [SUPPORTED_EXTS, List.mem_cons, List.not_mem_nil, or_false] at h
  unfold extract_text
  rcases h with h | h | h | h | h
  · rw [h, if_pos rfl]
    exact ⟨_, rfl⟩
  · rw [h, if_neg (by decide), if_pos rfl]
    exact ⟨_, rfl⟩
  · rw [h, if_neg (by decide), if_neg (by decide), if_pos rfl]
    exact ⟨_, rfl⟩
  · rw [h, if_neg (by decide), if_neg (by decide), if_neg (by decide), if_pos rfl]
    exact ⟨_, rfl⟩
  · rw [h, if_neg (by decide), if_neg (by decide), if_neg (by decide),
      if_neg (by decide), if_pos rfl]
    exact ⟨_, rfl⟩

theorem extract_text_error_shape {fs : Extractors} {path : List Char} {e : PipelineError}
    (h : extract_text fs path = Except.error e) :
    e = PipelineError.unsupportedFormat (extOf (pyLower path)) := by
  by_cases hmem : extOf (pyLower path) ∈ SUPPORTED_EXTS
  · obtain ⟨t, ht⟩ := @extract_text_ok_of_supported fs path hmem
    rw [h] at ht
    exact Except.noConfusion ht
  · have h2 := @extract_text_error_of_unsupported fs path hmem
    rw [h] at h2
    simpa using h2

/-- C8: the `NoChunksProduced` branch of `process_document` is unreachable
under the fixed configuration `chunk_size = 500`, `chunk_overlap = 50`: once
the extracted text passes the preceding emptiness check, `chunk_text` returns
at least one chunk, because every character position is covered by some slice
and a slice containing a non-whitespace character is non-empty after
trimming. -/
theorem no_chunks_unreachable (fs : Extractors) (embed : List Char → List Int)
    (path d f : List Char) (s : Store) :
    (processDocument fs embed path d f s).2 ≠
      Except.error PipelineError.noChunksProduced := by
  cases hx : extract_text fs path with
  | error e =>
    have he := extract_text_error_shape hx
    simp [processDocument, hx, he]
  | ok t =>
    by_cases h1 : pyStrip t = []
    · simp [processDocument, hx, h1]
    · have h2 := chunk_text_ne_nil h1
      simp [processDocument, hx, h1, h2]

/-! ## Theorems: ingestion is atomic (C3) and extraction dispatch (C5) -/

/-- C3: `process_document` raises `EmptyDocument` exactly when the extracted
text is empty or whitespace-only, and on every failing path (extraction
failure, the emptiness check, or the no-chunks check) the error is raised
before the vector-store write, so the store contents are unchanged. -/
theorem process_document_atomic : ∀ (fs : Extractors) (embed : List Char → List Int)
    (path d f : List Char) (s : Store),
    (∀ err, (processDocument fs embed path d f s).2 = Except.error err →
      (processDocument fs embed path d f s).1 = s) ∧
    (∀ t, extract_text fs path = Except.ok t → pyStrip t = [] →
      processDocument fs embed path d f s = (s, Except.error PipelineError.emptyDocument)) := by
  intro fs embed path d f s
  constructor
  · intro err herr
    cases hx : extract_text fs path with
    | error e => simp [processDocument, hx]
    | ok t =>
      by_cases h1 : pyStrip t = []
      · simp [processDocument, hx, h1]
      · by_cases h2 : chunk_text t = []
        · simp [processDocument, hx, h1, h2]
        · simp [processDocument, hx, h1, h2] at herr
  · intro t ht hempty
    simp [processDocument, ht, hempty]

/-- C5: `extract_text` dispatches purely on the file's extension — the suffix
of the lower-cased path after its last dot — and raises `UnsupportedFormat`
exactly when that extension is none of `pdf`, `docx`, `txt`, `pptx`, `ppt`;
when it raises, `process_document` leaves the store untouched. -/
theorem extract_text_dispatch : ∀ (fs : Extractors) (path : List Char),
    ((∃ e, extract_text fs path = Except.error e) ↔
      extOf (pyLower path) ∉ SUPPORTED_EXTS) ∧
    (∀ e, extract_text fs path = Except.error e →
      e = PipelineError.unsupportedFormat (extOf (pyLower path))) ∧
    (∀ embed d f s, extOf (pyLower path) ∉ SUPPORTED_EXTS →
      processDocument fs embed path d f s =
        (s, Except.error (PipelineError.unsupportedFormat (extOf (pyLower path))))) := by
  intro fs path
  refine ⟨⟨?_, ?_⟩, ?_, ?_⟩
  · rintro ⟨e, he⟩ hmem
    obtain ⟨t, ht⟩ := @extract_text_ok_of_supported fs path hmem
    rw [he] at ht
    exact Except.noConfusion ht
  · intro hmem
    exact ⟨_, extract_text_error_of_unsupported hmem⟩
  · intro e he
    exact extract_text_error_shape he
  · intro embed d f s hmem
    simp [processDocument, @extract_text_error_of_unsupported fs path hmem]

/-! ## Theorems: empty retrieval fallback (C6) and deletion result (C2) -/

/-- C6: when retrieval yields zero chunks, `ask_question` returns the fixed
no-relevant-information answer with an empty context list, and the result does
not depend on the generation oracle — the generation service is not called. -/
theorem ask_question_empty_fallback :
    ∀ (gen gen2 : List Char → List Char) (q : List Char),
    ask_question [] gen q = AskResult.mk NO_INFO_ANSWER [] ∧
    ask_question [] gen q = ask_question [] gen2 q := by
  intro gen gen2 q
  exact ⟨rfl, rfl⟩

/-- C2 (code bug): deleting a `doc_id` for which the store holds zero matching
records returns `true`, not `false` — `delete_document` returns `True` on the
no-match path too, so `main.py`'s 404 "Doküman bulunamadı" branch can never
fire for a merely missing document; the deletion does not raise and leaves the
store unchanged. -/
theorem delete_document_missing_returns_true :
    delete_document "missing".data [] = ([], true) := rfl

/-! ## Theorems: decimal rendering and identifier uniqueness (C10) -/

theorem natReprCore_ext : ∀ (fuel1 fuel2 n : Nat), n < fuel1 → n < fuel2 →
    natReprCore fuel1 n = natReprCore fuel2 n := by
  intro fuel1
  induction fuel1 with
  | zero => intro fuel2 n h1 h2; omega
  | succ fuel1 ih =>
    intro fuel2 n h1 h2
    cases fuel2 with
    | zero => omega
    | succ fuel2 =>
      simp only [natReprCore]
      by_cases hn : n < 10
      · simp [hn]
      · simp only [hn, if_false]
        have hd : n / 10 < n := Nat.div_lt_self (by omega) (by omega)
        rw [ih fuel2 (n / 10) (by omega) (by omega)]

theorem natRepr_lt {n : Nat} (h : n < 10) : natRepr n = [digitChar n] := by
  unfold natRepr
  simp only [natReprCore]
  simp [h]

theorem natRepr_ge {n : Nat} (h : 10 ≤ n) :
    natRepr n = natRepr (n / 10) ++ [digitChar (n % 10)] := by
  unfold natRepr
  rw [show natReprCore (n + 1) n =
    if n < 10 then [digitChar n]
    else natReprCore n (n / 10) ++ [digitChar (n % 10)] from rfl]
  simp only [Nat.not_lt.mpr h, if_false]
  have hd : n / 10 < n := Nat.div_lt_self (by omega) (by omega)
  rw [natReprCore_ext n (n / 10 + 1) (n / 10) (by omega) (by omega)]

theorem natRepr_ne_nil (n : Nat) : natRepr n ≠ [] := by
  by_cases h : n < 10
  · rw [natRepr_lt h]
    simp
  · rw [natRepr_ge (by omega)]
    simp

theorem digitChar_ne_underscore (d : Nat) : digitChar d ≠ '_' := by
  unfold digitChar
  split_ifs
  all_goals decide

theorem digitChar_inj : ∀ d1, d1 < 10 → ∀ d2, d2 < 10 →
    digitChar d1 = digitChar d2 → d1 = d2 := by decide

theorem natRepr_digits : ∀ (n : Nat), ∀ c ∈ natRepr n, ∃ d, d < 10 ∧ c = digitChar d := by
  intro n
  induction n using Nat.strong_induction_on with
  | _ n ih =>
    by_cases h : n < 10
    · rw [natRepr_lt h]
      intro c hc
      simp at hc
      exact ⟨n, h, hc⟩
    · rw [natRepr_ge (by omega)]
      intro c hc
      rcases List.mem_append.mp hc with h2 | h2
      · exact ih (n / 10) (Nat.div_lt_self (by omega) (by omega)) c h2
      · simp at h2
        exact ⟨n % 10, Nat.mod_lt _ (by omega), h2⟩

theorem natRepr_no_underscore (n : Nat) : ∀ c ∈ natRepr n, c ≠ '_' := by
  intro c hc
  obtain ⟨d, -, rfl⟩ := natRepr_digits n c hc
  exact digitChar_ne_underscore d

theorem natRepr_inj : ∀ (m n : Nat), natRepr m = natRepr n → m = n := by
  intro m
  induction m using Nat.strong_induction_on with
  | _ m ih =>
    intro n h
    by_cases hm : m < 10 <;> by_cases hn : n < 10
    · rw [natRepr_lt hm, natRepr_lt hn] at h
      simp at h
      exact digitChar_inj m hm n hn h
    · rw [natRepr_lt hm, natRepr_ge (by omega)] at h
      cases hq : natRepr (n / 10) with
      | nil => exact absurd hq (natRepr_ne_nil _)
      | cons a as =>
        rw [hq] at h
        simp at h
    · rw [natRepr_ge (by omega), natRepr_lt hn] at h
      cases hq : natRepr (m / 10) with
      | nil => exact absurd hq (natRepr_ne_nil _)
      | cons a as =>
        rw [hq] at h
        simp at h
    · rw [natRepr_ge (by omega : 10 ≤ m), natRepr_ge (by omega : 10 ≤ n)] at h
      obtain ⟨h1, h2⟩ := List.append_inj' h rfl
      have hdiv : m / 10 = n / 10 :=
        ih (m / 10) (Nat.div_lt_self (by omega) (by omega)) (n / 10) h1
      simp at h2
      have hmod : m % 10 = n % 10 :=
        digitChar_inj _ (Nat.mod_lt _ (by omega)) _ (Nat.mod_lt _ (by omega)) h2
      omega

theorem append_underscore_cancel :
    ∀ (A1 A2 r1 r2 : List Char), A1 ++ r1 = A2 ++ r2 →
    A1.getLast? = some '_' → A2.getLast? = some '_' →
    (∀ c ∈ r1, c ≠ '_') → (∀ c ∈ r2, c ≠ '_') → A1 = A2 ∧ r1 = r2 := by
  intro A1 A2 r1 r2 h hA1 hA2 hr1 hr2
  rcases List.append_eq_append_iff.mp h with ⟨t, ht1, ht2⟩ | ⟨t, ht1, ht2⟩
  · cases t with
    | nil =>
      simp at ht1 ht2
      exact ⟨ht1.symm, ht2⟩
    | cons x ts =>
      exfalso
      have hlast : A2.getLast? = (x :: ts).getLast? := by
        rw [ht1]
        exact List.getLast?_append_of_ne_nil A1 (by simp)
      rw [hA2] at hlast
      have hopt : '_' ∈ (x :: ts).getLast? := by
        rw [Option.mem_def]
        exact hlast.symm
      obtain ⟨hne, heq⟩ := List.mem_getLast?_eq_getLast hopt
      have hmem : '_' ∈ (x :: ts) := heq ▸ List.getLast_mem hne
      have : '_' ∈ r1 := ht2 ▸ List.mem_append.mpr (Or.inl hmem)
      exact hr1 '_' this rfl
  · cases t with
    | nil =>
      simp at ht1 ht2
      exact ⟨ht1, ht2.symm⟩
    | cons x ts =>
      exfalso
      have hlast : A1.getLast? = (x :: ts).getLast? := by
        rw [ht1]
        exact List.getLast?_append_of_ne_nil A2 (by simp)
      rw [hA1] at hlast
      have hopt : '_' ∈ (x :: ts).getLast? := by
        rw [Option.mem_def]
        exact hlast.symm
      obtain ⟨hne, heq⟩ := List.mem_getLast?_eq_getLast hopt
      have hmem : '_' ∈ (x :: ts) := heq ▸ List.getLast_mem hne
      have : '_' ∈ r2 := ht2 ▸ List.mem_append.mpr (Or.inl hmem)
      exact hr2 '_' this rfl

theorem sep_getLast (d : List Char) : (d ++ "_chunk_".data).getLast? = some '_' := by
  rw [List.getLast?_append_of_ne_nil d (by decide)]
  decide

theorem mkChunkId_inj : ∀ (d1 : List Char) (i1 : Nat) (d2 : List Char) (i2 : Nat),
    mkChunkId d1 i1 = mkChunkId d2 i2 → d1 = d2 ∧ i1 = i2 := by
  intro d1 i1 d2 i2 h
  unfold mkChunkId at h
  obtain ⟨hA, hr⟩ := append_underscore_cancel _ _ _ _ h (sep_getLast d1) (sep_getLast d2)
    (natRepr_no_underscore i1) (natRepr_no_underscore i2)
  exact ⟨List.append_cancel_right hA, natRepr_inj i1 i2 hr⟩

theorem processDocument_ok_shape {fs : Extractors} {embed : List Char → List Int}
    {path d f : List Char} {s s2 : Store} {r : IngestResult}
    (h : processDocument fs embed path d f s = (s2, Except.ok r)) :
    ∃ t, extract_text fs path = Except.ok t ∧ pyStrip t ≠ [] ∧ chunk_text t ≠ [] ∧
      s2 = s ++ List.zipWith
        (fun i c => ChromaRecord.mk (mkChunkId d i) (embed c) c d f i)
        (List.range (chunk_text t).length) (chunk_text t) ∧
      r = IngestResult.mk d f (chunk_text t).length t.length := by
  cases hx : extract_text fs path with
  | error e => simp [processDocument, hx] at h
  | ok t =>
    by_cases h1 : pyStrip t = []
    · simp [processDocument, hx, h1] at h
    · by_cases h2 : chunk_text t = []
      · simp [processDocument, hx, h1, h2] at h
      · simp only [processDocument, hx, h1, h2, if_neg, if_false] at h
        refine ⟨t, rfl, h1, h2, ?_, ?_⟩
        · simp at h
          exact h.1.symm
        · simp at h
          exact h.2.symm

theorem zipWith_mem_shape (embed : List Char → List Int) (d f : List Char) :
    ∀ (idxs : List Nat) (chunks : List (List Char)) (rec : ChromaRecord),
    rec ∈ List.zipWith
      (fun i c => ChromaRecord.mk (mkChunkId d i) (embed c) c d f i) idxs chunks →
    rec.id = mkChunkId d rec.chunk_index ∧ rec.doc_id = d ∧ rec.filename = f := by
  intro idxs
  induction idxs with
  | nil =>
    intro chunks rec h
    simp at h
  | cons i idxs ih =>
    intro chunks rec h
    cases chunks with
    | nil => simp at h
    | cons c chunks =>
      simp only [List.zipWith_cons_cons, List.mem_cons] at h
      rcases h with rfl | hh
      · exact ⟨rfl, rfl, rfl⟩
      · exact ih chunks rec hh

theorem zipWith_ids (embed : List Char → List Int) (d f : List Char) :
    ∀ (idxs : List Nat) (chunks : List (List Char)), idxs.length = chunks.length →
    (List.zipWith
      (fun i c => ChromaRecord.mk (mkChunkId d i) (embed c) c d f i) idxs chunks).map
      (fun r => r.id) = idxs.map (mkChunkId d) := by
  intro idxs
  induction idxs with
  | nil =>
    intro chunks h
    simp
  | cons i idxs ih =>
    intro chunks h
    cases chunks with
    | nil => simp at h
    | cons c chunks =>
      simp only [List.zipWith_cons_cons, List.map_cons]
      rw [ih chunks (by simpa using h)]

/-- C10: the record identifier `doc_id ++ "_chunk_" ++ index` is injective in
the `(doc_id, chunk_index)` pair — the decimal index string contains no
underscore, so the composition separates cleanly — hence records whose pairs
differ get different identifiers; and a store whose ids all follow this scheme
and are pairwise distinct keeps both properties through every successful
ingestion under a fresh `doc_id`. -/
theorem chunk_ids_unique :
    ∀ (d1 : List Char) (i1 : Nat) (d2 : List Char) (i2 : Nat)
      (fs : Extractors) (embed : List Char → List Int)
      (path d f : List Char) (s s2 : Store) (r : IngestResult),
    (mkChunkId d1 i1 = mkChunkId d2 i2 → d1 = d2 ∧ i1 = i2) ∧
    (StoreWellFormed s → UniqueIds s → (∀ rec ∈ s, rec.doc_id ≠ d) →
      processDocument fs embed path d f s = (s2, Except.ok r) →
      StoreWellFormed s2 ∧ UniqueIds s2) := by
  intro d1 i1 d2 i2 fs embed path d f s s2 r
  refine ⟨mkChunkId_inj d1 i1 d2 i2, ?_⟩
  intro hwf huniq hfresh hrun
  obtain ⟨t, hx, h1, h2, hs2, hr⟩ := processDocument_ok_shape hrun
  subst hs2
  constructor
  · intro rec hrec
    rcases List.mem_append.mp hrec with hh | hh
    · exact hwf rec hh
    · obtain ⟨hid, hdoc, hfn⟩ := zipWith_mem_shape embed d f _ _ rec hh
      rw [hid, hdoc]
  · unfold UniqueIds at huniq ⊢
    rw [List.map_append, List.nodup_append]
    refine ⟨huniq, ?_, ?_⟩
    · rw [zipWith_ids embed d f _ _ (by simp)]
      exact (List.nodup_range _).map fun a b hh => (mkChunkId_inj d a d b hh).2
    · intro x hx1 hx2
      obtain ⟨rec1, hrec1, rfl⟩ := List.mem_map.mp hx1
      rw [zipWith_ids embed d f _ _ (by simp)] at hx2
      obtain ⟨i, hi, heq⟩ := List.mem_map.mp hx2
      have hefd : mkChunkId d i = mkChunkId rec1.doc_id rec1.chunk_index := by
        rw [heq, hwf rec1 hrec1]
      exact hfresh rec1 hrec1 ((mkChunkId_inj d i rec1.doc_id rec1.chunk_index hefd).1.symm)

/-! ## Theorems: ingest-then-list round trip (C9) -/

theorem addMetaStep_no_doc {docs : List DocSummary} {r : ChromaRecord} {d : List Char}
    (hdocs : ∀ e ∈ docs, e.doc_id ≠ d) (hr : r.doc_id ≠ d) :
    ∀ e ∈ addMetaStep docs r, e.doc_id ≠ d := by
  intro e he
  unfold addMetaStep at he
  obtain ⟨e0, he0, rfl⟩ := List.mem_map.mp he
  have he0d : e0.doc_id ≠ d := by
    by_cases hany : docs.any (fun e => e.doc_id = r.doc_id) = true
    · rw [if_pos hany] at he0
      exact hdocs e0 he0
    · rw [if_neg hany] at he0
      rcases List.mem_append.mp he0 with hh | hh
      · exact hdocs e0 hh
      · simp at hh
        rw [hh]
        exact hr
  by_cases hcond : e0.doc_id = r.doc_id
  · simp [hcond]
    rw [← hcond]
    exact he0d
  · simp [hcond]
    exact he0d

theorem foldl_no_doc : ∀ (recs : Store) (docs : List DocSummary) (d : List Char),
    (∀ e ∈ docs, e.doc_id ≠ d) → (∀ rec ∈ recs, rec.doc_id ≠ d) →
    ∀ e ∈ recs.foldl addMetaStep docs, e.doc_id ≠ d := by
  intro recs
  induction recs with
  | nil =>
    intro docs d h1 h2
    simpa using h1
  | cons rec recs ih =>
    intro docs d h1 h2
    simp only [List.foldl_cons]
    exact ih _ d (addMetaStep_no_doc h1 (h2 rec (by simp)))
      (fun x hx => h2 x (by simp [hx]))

theorem addMetaStep_mem_incr {docs : List DocSummary} {r : ChromaRecord}
    {d f : List Char} {k : Nat}
    (hmem : DocSummary.mk d f k ∈ docs) (hr : r.doc_id = d) :
    DocSummary.mk d f (k + 1) ∈ addMetaStep docs r := by
  unfold addMetaStep
  have hany : docs.any (fun e => e.doc_id = r.doc_id) = true := by
    rw [List.any_eq_true]
    exact ⟨_, hmem, by simp [hr]⟩
  rw [if_pos hany]
  refine List.mem_map.mpr ⟨DocSummary.mk d f k, hmem, ?_⟩
  simp [hr]

theorem addMetaStep_new {docs : List DocSummary} {r : ChromaRecord} {d : List Char}
    (hno : ∀ e ∈ docs, e.doc_id ≠ d) (hr : r.doc_id = d) :
    addMetaStep docs r = docs ++ [DocSummary.mk d r.filename 1] := by
  unfold addMetaStep
  have hany : docs.any (fun e => e.doc_id = r.doc_id) = false := by
    rw [List.any_eq_false]
    intro e he
    simp [hr]
    exact hno e he
  rw [if_neg (by simp [hany])]
  rw [List.map_append]
  have hmap : docs.map (fun e =>
      if e.doc_id = r.doc_id then DocSummary.mk e.doc_id e.filename (e.chunk_count + 1)
      else e) = docs := by
    have hcong : ∀ e ∈ docs, (if e.doc_id = r.doc_id
        then DocSummary.mk e.doc_id e.filename (e.chunk_count + 1) else e) = id e := by
      intro e he
      rw [if_neg]
      · rfl
      · rw [hr]
        exact hno e he
    rw [List.map_congr_left hcong, List.map_id]
  rw [hmap]
  simp [hr]

theorem foldl_incr {d f : List Char} : ∀ (recs : Store) (docs : List DocSummary) (k : Nat),
    (∀ rec ∈ recs, rec.doc_id = d) →
    DocSummary.mk d f k ∈ docs →
    DocSummary.mk d f (k + recs.length) ∈ recs.foldl addMetaStep docs := by
  intro recs
  induction recs with
  | nil =>
    intro docs k h1 h2
    simpa using h2
  | cons rec recs ih =>
    intro docs k h1 h2
    simp only [List.foldl_cons, List.length_cons]
    have hstep := addMetaStep_mem_incr h2 (h1 rec (by simp))
    have hrest := ih (addMetaStep docs rec) (k + 1)
      (fun x hx => h1 x (by simp [hx])) hstep
    have harith : k + 1 + recs.length = k + (recs.length + 1) := by omega
    rwa [harith] at hrest

theorem foldl_fresh_group {d f : List Char} : ∀ (recs : Store) (docs : List DocSummary),
    recs ≠ [] →
    (∀ rec ∈ recs, rec.doc_id = d ∧ rec.filename = f) →
    (∀ e ∈ docs, e.doc_id ≠ d) →
    DocSummary.mk d f recs.length ∈ recs.foldl addMetaStep docs := by
  intro recs docs hne hall hno
  cases recs with
  | nil => exact absurd rfl hne
  | cons rec recs =>
    simp only [List.foldl_cons, List.length_cons]
    have hd := (hall rec (by simp)).1
    have hf := (hall rec (by simp)).2
    have hmem1 : DocSummary.mk d f 1 ∈ addMetaStep docs rec := by
      rw [addMetaStep_new hno hd, hf]
      simp
    have hrest := foldl_incr recs (addMetaStep docs rec) 1
      (fun x hx => (hall x (by simp [hx])).1) hmem1
    rwa [show 1 + recs.length = recs.length + 1 from by omega] at hrest

/-- C9: round trip of ingestion and listing — after a successful
`process_document` under a fresh `doc_id`, `get_all_documents` contains an
entry whose `doc_id` is that document's identifier, whose `chunk_count` equals
the `total_chunks` the ingestion returned, and whose `filename` comes from the
document's records. -/
theorem ingest_then_list_roundtrip (fs : Extractors) (embed : List Char → List Int)
    (path d f : List Char) (s s2 : Store) (r : IngestResult)
    (hfresh : ∀ rec ∈ s, rec.doc_id ≠ d)
    (hrun : processDocument fs embed path d f s = (s2, Except.ok r)) :
    DocSummary.mk d f r.total_chunks ∈ get_all_documents s2 := by
  obtain ⟨t, hx, h1, h2, hs2, hr⟩ := processDocument_ok_shape hrun
  subst hs2
  have hlen : (List.zipWith
      (fun i c => ChromaRecord.mk (mkChunkId d i) (embed c) c d f i)
      (List.range (chunk_text t).length) (chunk_text t)).length =
      (chunk_text t).length := by
    simp
  have hrecne : List.zipWith
      (fun i c => ChromaRecord.mk (mkChunkId d i) (embed c) c d f i)
      (List.range (chunk_text t).length) (chunk_text t) ≠ [] := by
    intro hh
    rw [hh] at hlen
    exact h2 (List.length_eq_zero.mp hlen.symm)
  have hsne : s ++ List.zipWith
      (fun i c => ChromaRecord.mk (mkChunkId d i) (embed c) c d f i)
      (List.range (chunk_text t).length) (chunk_text t) ≠ [] := by
    simp [hrecne]
  unfold get_all_documents
  rw [if_neg hsne, List.foldl_append]
  have hall : ∀ rec ∈ List.zipWith
      (fun i c => ChromaRecord.mk (mkChunkId d i) (embed c) c d f i)
      (List.range (chunk_text t).length) (chunk_text t),
      rec.doc_id = d ∧ rec.filename = f := by
    intro rec hrec
    obtain ⟨-, hdoc, hfn⟩ := zipWith_mem_shape embed d f _ _ rec hrec
    exact ⟨hdoc, hfn⟩
  have hno := foldl_no_doc s [] d (by simp) hfresh
  have hgrp := foldl_fresh_group _ _ hrecne hall hno
  rw [hlen] at hgrp
  rw [hr]
  exact hgrp

/-- Witness for `ingest_then_list_roundtrip`: ingesting "hello world" as
`doc1`/`file.txt` into the empty store and listing it back. -/
theorem ingest_then_list_roundtrip_witness :
    DocSummary.mk "doc1".data "file.txt".data
      (IngestResult.mk "doc1".data "file.txt".data 1 11).total_chunks ∈
      get_all_documents (processDocument exExtractors exEmbed "a.txt".data
        "doc1".data "file.txt".data []).1 :=
  ingest_then_list_roundtrip exExtractors exEmbed "a.txt".data "doc1".data
    "file.txt".data [] _ _ (by simp) rfl
